import Mathlib

/-!
Verification of the slug-generation and variable-interpolation core of
`gitlab-ci-env.py`, shallowly embedded in Lean.  Strings are modelled as
`List Char` (one entry per Unicode code point, matching Python's `str`
indexing and slicing); byte strings are `List Nat` with entries below 256.
All definitions are translated from the Python source; helper names keep
the source's names where possible.
-/

/-! ## Character classes (the regex classes `[a-z]`, `[0-9]`, `[a-z0-9]`, `[a-z0-9-]`) -/

/-- The regex class `[a-z]`: ASCII lowercase letters. -/
def isLowerAlpha (c : Char) : Bool := decide (97 ≤ c.toNat ∧ c.toNat ≤ 122)

/-- The regex class `[0-9]`: ASCII digits. -/
def isDigitChar (c : Char) : Bool := decide (48 ≤ c.toNat ∧ c.toNat ≤ 57)

/-- The regex class `[a-z0-9]`. -/
def isAlnumChar (c : Char) : Bool := isLowerAlpha c || isDigitChar c

/-- The regex class `[a-z0-9-]` (`'-'` has code 45). -/
def isSlugChar (c : Char) : Bool := isAlnumChar c || decide (c = '-')

/-- ASCII uppercase letters `[A-Z]`. -/
def isAsciiUpper (c : Char) : Bool := decide (65 ≤ c.toNat ∧ c.toNat ≤ 90)

/-- Per-character model of Python's `str.lower()` (ASCII case mapping;
`lower` acts pointwise on characters). -/
def pyLower (c : Char) : Char :=
  if isAsciiUpper c then Char.ofNat (c.toNat + 32) else c

/-! ## `b36encode` (source lines 12-21)

```
def b36encode(b, alphabet="0123456789abcdefghijklmnopqrstuvwxyz"):
    num = int.from_bytes(b, byteorder="big")
    base36 = ""
    while num:
        num, i = divmod(num, 36)
        base36 = alphabet[i] + base36
    return base36
```
-/

/-- `BASE36_LOWERCASE_ALPHABET` from the source. -/
def b36alphabet : List Char := "0123456789abcdefghijklmnopqrstuvwxyz".data

/-- `alphabet[i]` for the base-36 alphabet. -/
def b36digit (i : Nat) : Char := b36alphabet.getD i '0'

/-- `int.from_bytes(b, byteorder="big")`: big-endian bytes to a natural number. -/
def bytesBE (b : List Nat) : Nat := b.foldl (fun acc x => acc * 256 + x) 0

/-- The `while num:` loop of `b36encode`: repeatedly divide by 36,
prepending the digit for each remainder (here: consing onto `acc`). -/
def b36go (num : Nat) (acc : List Char) : List Char :=
  if h : num = 0 then acc
  else b36go (num / 36) (b36digit (num % 36) :: acc)
termination_by num
decreasing_by exact Nat.div_lt_self (Nat.pos_of_ne_zero h) (by decide)

/-- `b36encode` from the source. -/
def b36encode (b : List Nat) : List Char := b36go (bytesBE b) []

/-! ## SHA-256 (`hashlib.sha256(...).digest()`)

A byte-level implementation of FIPS 180-4 SHA-256, used by the slow path of
`generate_environment_slug`.  Words are `Nat` values kept below `2^32` by
explicit `% 4294967296`.
-/

/-- The eight initial hash values of SHA-256 (FIPS 180-4, written in
decimal). -/
def sha256H0 : List Nat :=
  [1779033703, 3144134277, 1013904242, 2773480762,
   1359893119, 2600822924, 528734635, 1541459225]

/-- The 64 round constants of SHA-256 (FIPS 180-4, written in decimal,
row-major). -/
def sha256K : List Nat :=
  [1116352408, 1899447441, 3049323471, 3921009573, 961987163, 1508970993,
   2453635748, 2870763221, 3624381080, 310598401, 607225278, 1426881987,
   1925078388, 2162078206, 2614888103, 3248222580, 3835390401, 4022224774,
   264347078, 604807628, 770255983, 1249150122, 1555081692, 1996064986,
   2554220882, 2821834349, 2952996808, 3210313671, 3336571891, 3584528711,
   113926993, 338241895, 666307205, 773529912, 1294757372, 1396182291,
   1695183700, 1986661051, 2177026350, 2456956037, 2730485921, 2820302411,
   3259730800, 3345764771, 3516065817, 3600352804, 4094571909, 275423344,
   430227734, 506948616, 659060556, 883997877, 958139571, 1322822218,
   1537002063, 1747873779, 1955562222, 2024104815, 2227730452, 2361852424,
   2428436474, 2756734187, 3204031479, 3329325298]

/-- 32-bit rotate right. -/
def rotr32 (x n : Nat) : Nat := ((x >>> n) ||| (x <<< (32 - n))) % 4294967296

/-- Big-endian bytes (most significant first) of `x`, `n` bytes wide. -/
def beBytes : Nat → Nat → List Nat
  | 0, _ => []
  | n + 1, x => beBytes n (x / 256) ++ [x % 256]

/-- Group bytes into big-endian 32-bit words. -/
def bytesToWords : List Nat → List Nat
  | b0 :: b1 :: b2 :: b3 :: rest => (((b0 * 256 + b1) * 256 + b2) * 256 + b3) :: bytesToWords rest
  | _ => []

/-- SHA-256 padding: append `0x80`, zero bytes up to 56 mod 64, then the
64-bit big-endian bit length of the message. -/
def sha256Pad (msg : List Nat) : List Nat :=
  msg ++ [0x80] ++ List.replicate ((119 - msg.length % 64) % 64) 0 ++ beBytes 8 (msg.length * 8)

/-- Split a byte list into 64-byte blocks. -/
def chunk64 (l : List Nat) : List (List Nat) :=
  if h : l = [] then [] else l.take 64 :: chunk64 (l.drop 64)
termination_by l.length
decreasing_by
  simp only [List.length_drop]
  exact Nat.sub_lt (List.length_pos.mpr h) (by decide)

/-- One step of the SHA-256 message-schedule extension: append
`w[n-16] + s0(w[n-15]) + w[n-7] + s1(w[n-2])` (mod `2^32`). -/
def sha256ExtendStep (w : List Nat) : List Nat :=
  let n := w.length
  let w15 := w.getD (n - 15) 0
  let w2 := w.getD (n - 2) 0
  let s0 := (rotr32 w15 7) ^^^ (rotr32 w15 18) ^^^ (w15 >>> 3)
  let s1 := (rotr32 w2 17) ^^^ (rotr32 w2 19) ^^^ (w2 >>> 10)
  w ++ [(w.getD (n - 16) 0 + s0 + w.getD (n - 7) 0 + s1) % 4294967296]

/-- Extend the 16 block words to the 64 schedule words. -/
def sha256Schedule (w16 : List Nat) : List Nat :=
  (List.range 48).foldl (fun w _ => sha256ExtendStep w) w16

/-- One SHA-256 compression round on the state `[a,b,c,d,e,f,g,h]`. -/
def sha256Round (st : List Nat) (kw : Nat × Nat) : List Nat :=
  match st with
  | [a, b, c, d, e, f, g, h] =>
    let S1 := (rotr32 e 6) ^^^ (rotr32 e 11) ^^^ (rotr32 e 25)
    let ch := (e &&& f) ^^^ ((e ^^^ 4294967295) &&& g)
    let t1 := (h + S1 + ch + kw.1 + kw.2) % 4294967296
    let S0 := (rotr32 a 2) ^^^ (rotr32 a 13) ^^^ (rotr32 a 22)
    let mj := (a &&& b) ^^^ (a &&& c) ^^^ (b &&& c)
    let t2 := (S0 + mj) % 4294967296
    [(t1 + t2) % 4294967296, a, b, c, (d + t1) % 4294967296, e, f, g]
  | _ => st

/-- Process one 64-byte block: run the 64 rounds and add the result into
the running hash values. -/
def sha256Block (hs : List Nat) (block : List Nat) : List Nat :=
  let w := sha256Schedule (bytesToWords block)
  let st := (sha256K.zip w).foldl sha256Round hs
  (hs.zip st).map (fun p => (p.1 + p.2) % 4294967296)

/-- `hashlib.sha256(msg).digest()`: the 32-byte SHA-256 digest. -/
def sha256 (msg : List Nat) : List Nat :=
  (((chunk64 (sha256Pad msg)).foldl sha256Block sha256H0).map (beBytes 4)).flatten

/-- UTF-8 bytes of one code point, modelling Python's `str.encode()`
applied to a single character. -/
def utf8Bytes (c : Char) : List Nat :=
  let n := c.toNat
  if n < 0x80 then [n]
  else if n < 0x800 then
    [0xC0 ||| (n >>> 6), 0x80 ||| (n &&& 0x3F)]
  else if n < 0x10000 then
    [0xE0 ||| (n >>> 12), 0x80 ||| ((n >>> 6) &&& 0x3F), 0x80 ||| (n &&& 0x3F)]
  else
    [0xF0 ||| (n >>> 18), 0x80 ||| ((n >>> 12) &&& 0x3F),
     0x80 ||| ((n >>> 6) &&& 0x3F), 0x80 ||| (n &&& 0x3F)]

/-- `environment_name.encode()`: UTF-8 encoding of a string. -/
def utf8Encode (s : List Char) : List Nat := (s.map utf8Bytes).flatten

/-! ## `generate_commit_ref_slug` (source lines 31-44)

```
slug = branch.lower()[:63]
slug = re.sub("[^a-z0-9-]+", "-", slug)
slug = re.sub("^-*([a-z0-9-]+[a-z0-9])-*$$", "\\1", slug)
```
-/

/-- Scanner for `re.sub("[^a-z0-9-]+", "-", s)`: the flag records
whether the previous character was part of a run of characters outside
`[a-z0-9-]` (in which case the run's single `'-'` has already been
emitted). -/
def replaceRunsAux : Bool → List Char → List Char
  | _, [] => []
  | inRun, c :: rest =>
    if isSlugChar c then c :: replaceRunsAux false rest
    else if inRun then replaceRunsAux true rest
    else '-' :: replaceRunsAux true rest

/-- `re.sub("[^a-z0-9-]+", "-", s)`: replace every maximal run of
characters outside `[a-z0-9-]` with a single `'-'`. -/
def replaceRuns (l : List Char) : List Char := replaceRunsAux false l

/-- The longest prefix of a string up to and including its last
character from `[a-z0-9]` (empty when the string has no such character).
This is the candidate for the group `([a-z0-9-]+[a-z0-9])` of the strip
regex, which must end at the last alphanumeric character (everything
after the group must match `-*$`). -/
def alnumCore (s : List Char) : List Char :=
  (s.reverse.dropWhile (fun c => isAlnumChar c = false)).reverse

/-- The number of leading `'-'` characters, i.e. the longest extent the
greedy `^-*` of the strip regex can take. -/
def dashPrefixLen (s : List Char) : Nat :=
  (s.takeWhile (fun c => c == '-')).length

/-- `re.sub("^-*([a-z0-9-]+[a-z0-9])-*$$", "\\1", s)`.

The pattern (in which `$$` is two zero-width end anchors, equivalent to
one) matches the whole string exactly when every character is in
`[a-z0-9-]` and the group can be placed: the group must end at the last
alphanumeric character (index `j`, so the group is a suffix-trimmed
prefix ending there) and needs at least two characters, so its start is
at most `j - 1`; the greedy `^-*` takes `min(leadingDashes, j - 1)`
characters.  `re.sub` then replaces the whole string by the group
`s[min(leadingDashes, j-1) .. j]`, i.e. `alnumCore` minus the dropped
leading characters.  When the pattern does not match (some character
outside the class, no alphanumeric at all, or the last alphanumeric is
the first character, leaving no room for a two-character group) the
string is returned unchanged. -/
def stripAnchored (s : List Char) : List Char :=
  if s.all isSlugChar then
    if 2 ≤ (alnumCore s).length then
      (alnumCore s).drop (min (dashPrefixLen s) ((alnumCore s).length - 2))
    else s
  else s

/-- `generate_commit_ref_slug` from the source: lowercase, truncate to 63
characters, collapse runs of invalid characters to `'-'`, then apply the
anchored strip. -/
def generate_commit_ref_slug (branch : List Char) : List Char :=
  stripAnchored (replaceRuns ((branch.map pyLower).take 63))

/-! ## `generate_environment_slug` (source lines 49-81)

```
slug = re.sub("[^a-z0-9]", "-", environment_name.lower())
if not re.match("[a-z]", slug):
    slug = "env-" + slug
slug = re.sub(r"\-+", "-", slug)
if len(slug) <= 24 and slug == environment_name:
    return slug.rstrip("-")
slug = slug[:17]
if not slug.endswith("-"):
    slug += "-"
hash = hashlib.sha256(environment_name.encode()).digest()
base36_hash = b36encode(hash)
return slug + base36_hash[-6:]
```
-/

/-- `re.match("[a-z]", s)` as a Boolean: does the string start with a
lowercase letter? -/
def startsWithLowerAlpha : List Char → Bool
  | [] => false
  | c :: _ => isLowerAlpha c

/-- The literal `"env-"` prefix. -/
def envPrefixChars : List Char := "env-".data

/-- Scanner for `re.sub(r"\-+", "-", s)`: the flag records whether the
previous character was a dash (in which case the run's single `'-'` has
already been emitted). -/
def collapseAux : Bool → List Char → List Char
  | _, [] => []
  | prevDash, c :: rest =>
    if c = '-' then
      if prevDash then collapseAux true rest else '-' :: collapseAux true rest
    else c :: collapseAux false rest

/-- `re.sub(r"\-+", "-", s)`: collapse every maximal run of dashes into a
single dash. -/
def collapseDashes (l : List Char) : List Char := collapseAux false l

/-- Steps 1-3 of `generate_environment_slug`: the collapsed slug that the
fast-path test compares against the original name. -/
def envCollapsedSlug (environment_name : List Char) : List Char :=
  collapseDashes
    (if startsWithLowerAlpha
          ((environment_name.map pyLower).map (fun c => if isAlnumChar c then c else '-'))
     then (environment_name.map pyLower).map (fun c => if isAlnumChar c then c else '-')
     else envPrefixChars ++ (environment_name.map pyLower).map (fun c => if isAlnumChar c then c else '-'))

/-- `s.rstrip("-")`: remove all trailing dashes. -/
def rstripDashes (l : List Char) : List Char :=
  (l.reverse.dropWhile (fun c => c == '-')).reverse

/-- Python's `l[-n:]`: the last `n` elements (the whole list when it is
shorter than `n`). -/
def lastN (n : Nat) (l : List α) : List α := l.drop (l.length - n)

/-- `generate_environment_slug` from the source. -/
def generate_environment_slug (environment_name : List Char) : List Char :=
  if (envCollapsedSlug environment_name).length ≤ 24 ∧
      envCollapsedSlug environment_name = environment_name then
    rstripDashes (envCollapsedSlug environment_name)
  else
    (if ((envCollapsedSlug environment_name).take 17).getLast? = some '-'
     then (envCollapsedSlug environment_name).take 17
     else (envCollapsedSlug environment_name).take 17 ++ ['-'])
    ++ lastN 6 (b36encode (sha256 (utf8Encode environment_name)))

/-! ## `interpolate_env_variables` (source lines 84-92)

```
for key, val in env_variables.items():
    string = string.replace(f"${key}", val).replace(f"${{{key}}}", val)
return string
```

A Python `dict[str, str]` is modelled as an association list in insertion
order.
-/

/-- Helper for `pyReplace` for a non-empty pattern `p :: ps`: scan left to
right, and on a match emit the replacement and continue after the matched
occurrence (Python `str.replace` replaces non-overlapping occurrences and
never rescans the text it just inserted in the same call).  The fuel
argument only bounds the recursion depth: it starts at the scanned
string's length and every step consumes at least one character of the
string while spending exactly one unit of fuel, so the `0, s => s`
branch is never reached from `pyReplace`. -/
def replaceAuxF (p : Char) (ps rep : List Char) : Nat → List Char → List Char
  | _, [] => []
  | 0, s => s
  | fuel + 1, c :: rest =>
    if (p :: ps).isPrefixOf (c :: rest) then
      rep ++ replaceAuxF p ps rep fuel (rest.drop ps.length)
    else c :: replaceAuxF p ps rep fuel rest

/-- Python's `s.replace(pat, rep)` (for the empty pattern, Python inserts
`rep` before every character and at the end; the slugger only ever uses
non-empty patterns). -/
def pyReplace (s pat rep : List Char) : List Char :=
  match pat with
  | [] => rep ++ (s.map (fun c => c :: rep)).flatten
  | p :: ps => replaceAuxF p ps rep s.length s

/-- The pattern `f"${key}"`. -/
def dollarPat (key : List Char) : List Char := '$' :: key

/-- The pattern `f"${{{key}}}"`, i.e. a dollar, an opening brace, the key,
and a closing brace. -/
def bracePat (key : List Char) : List Char :=
  '$' :: Char.ofNat 123 :: (key ++ [Char.ofNat 125])

/-- `interpolate_env_variables` from the source. -/
def interpolate_env_variables (s : List Char)
    (env_variables : List (List Char × List Char)) : List Char :=
  env_variables.foldl
    (fun acc kv => pyReplace (pyReplace acc (dollarPat kv.1) kv.2) (bracePat kv.1) kv.2) s

/-! ## `PredefinedVariables` and its `generate` builder (source lines 95-137) -/

/-- The dataclass `PredefinedVariables`. -/
structure PredefinedVariables where
  CI_COMMIT_REF_NAME : List Char
  CI_COMMIT_REF_SLUG : List Char
  CI_ENVIRONMENT_NAME : List Char
  CI_ENVIRONMENT_SLUG : List Char
  CI_ENVIRONMENT_URL : Option (List Char)
deriving DecidableEq

/-- The key string `"CI_COMMIT_REF_NAME"`. -/
def refNameKey : List Char := "CI_COMMIT_REF_NAME".data

/-- The key string `"CI_COMMIT_REF_SLUG"`. -/
def refSlugKey : List Char := "CI_COMMIT_REF_SLUG".data

/-- The key string `"CI_ENVIRONMENT_NAME"`. -/
def envNameKey : List Char := "CI_ENVIRONMENT_NAME".data

/-- The key string `"CI_ENVIRONMENT_SLUG"`. -/
def envSlugKey : List Char := "CI_ENVIRONMENT_SLUG".data

/-- Python's `{**a, **b}` on dicts, as association lists: keys of `a`
keep their positions but take `b`'s value when `b` also binds them; keys
of `b` not present in `a` are appended in `b`'s order. -/
def dictMerge (a b : List (List Char × List Char)) : List (List Char × List Char) :=
  a.map (fun kv => (kv.1, (b.lookup kv.1).getD kv.2))
    ++ b.filter (fun kv => (a.lookup kv.1).isNone)

/-- `PredefinedVariables.generate` from the source.  `environment_url`
is the optional `--environment-url` argument; the Python guard
`if environment_url:` is falsy both for `None` and for the empty
string. -/
def PredefinedVariables.generate (branch environment_name : List Char)
    (environment_url : Option (List Char))
    (env : List (List Char × List Char)) : PredefinedVariables :=
  { CI_COMMIT_REF_NAME := branch
    CI_COMMIT_REF_SLUG := generate_commit_ref_slug branch
    CI_ENVIRONMENT_NAME :=
      interpolate_env_variables environment_name
        [(refNameKey, branch), (refSlugKey, generate_commit_ref_slug branch)]
    CI_ENVIRONMENT_SLUG :=
      generate_environment_slug
        (interpolate_env_variables environment_name
          [(refNameKey, branch), (refSlugKey, generate_commit_ref_slug branch)])
    CI_ENVIRONMENT_URL :=
      match environment_url with
      | none => none
      | some url =>
        if url = [] then none
        else
          some (interpolate_env_variables url
            (dictMerge env
              [(refNameKey, branch),
               (refSlugKey, generate_commit_ref_slug branch),
               (envNameKey,
                interpolate_env_variables environment_name
                  [(refNameKey, branch), (refSlugKey, generate_commit_ref_slug branch)]),
               (envSlugKey,
                generate_environment_slug
                  (interpolate_env_variables environment_name
                    [(refNameKey, branch), (refSlugKey, generate_commit_ref_slug branch)]))])) }

/-! ## Specification-side definitions used to state the claims -/

/-- The base-36 value of a digit character (`'0'`-`'9'` are 0-9,
`'a'`-`'z'` are 10-35). -/
def digitVal (c : Char) : Nat :=
  if 48 ≤ c.toNat ∧ c.toNat ≤ 57 then c.toNat - 48
  else if 97 ≤ c.toNat ∧ c.toNat ≤ 122 then c.toNat - 87
  else 0

/-- The numeric value of a base-36 digit string, most significant digit
first. -/
def valueOfBase36 (l : List Char) : Nat :=
  l.foldl (fun acc c => acc * 36 + digitVal c) 0

/-! ## Helper lemmas: character classes -/

/-- Characters of `[a-z0-9-]` are unchanged by `str.lower()`. -/
theorem pyLower_fixed {c : Char} (h : isSlugChar c = true) : pyLower c = c := by
  have hu : isAsciiUpper c = false := by
    simp only [isSlugChar, isAlnumChar, isLowerAlpha, isDigitChar, Bool.or_eq_true,
      decide_eq_true_eq] at h
    simp only [isAsciiUpper, decide_eq_false_iff_not]
    rcases h with (h | h) | h
    · omega
    · omega
    · subst h; decide
  simp [pyLower, hu]

/-- A lowercase letter is not a dash. -/
theorem lowerAlpha_ne_dash {c : Char} (h : isLowerAlpha c = true) : ¬ c = '-' := by
  intro hEq; subst hEq; simp [isLowerAlpha] at h

/-- A string whose characters are all in `[a-z0-9-]` is unchanged by
pointwise `str.lower()`. -/
theorem map_pyLower_fixed {l : List Char} (h : ∀ c ∈ l, isSlugChar c = true) :
    l.map pyLower = l := by
  induction l with
  | nil => rfl
  | cons a t ih =>
    simp only [List.map_cons]
    rw [pyLower_fixed (h a (by simp)), ih (fun c hc => h c (by simp [hc]))]

/-! ## Helper lemmas: `dropWhile` and `takeWhile` -/

/-- `dropWhile` is dropping the length of the `takeWhile` prefix. -/
theorem dropWhile_eq_drop (p : α → Bool) (l : List α) :
    l.dropWhile p = l.drop (l.takeWhile p).length := by
  induction l with
  | nil => rfl
  | cons a t ih =>
    by_cases h : p a
    · simp [List.dropWhile_cons_of_pos h, List.takeWhile_cons_of_pos h, ih]
    · simp [List.dropWhile_cons_of_neg h, List.takeWhile_cons_of_neg h]

/-- The head of a non-empty `dropWhile` result falsifies the predicate. -/
theorem dropWhile_head_false (p : α → Bool) {c : α} {t : List α} :
    ∀ l : List α, l.dropWhile p = c :: t → p c = false := by
  intro l
  induction l with
  | nil => intro h; simp at h
  | cons a t' ih =>
    intro h
    rw [List.dropWhile_cons] at h
    split at h
    · exact ih h
    · next hneg =>
      injection h with h1 h2
      subst h1
      simpa using hneg

/-- Appending an element that falsifies the predicate commutes with
`dropWhile`. -/
theorem dropWhile_append_singleton (p : α → Bool) {c : α} (hc : p c = false) (l : List α) :
    (l ++ [c]).dropWhile p = l.dropWhile p ++ [c] := by
  rw [List.dropWhile_append]
  by_cases hE : (l.dropWhile p).isEmpty
  · rw [if_pos hE, List.isEmpty_iff.mp hE]
    simp [List.dropWhile_cons, hc]
  · rw [if_neg hE]

/-! ## Helper lemmas: `rstripDashes` -/

/-- `rstrip("-")` distributes over a non-dash head. -/
theorem rstripDashes_cons {c : Char} (hc : (c == '-') = false) (t : List Char) :
    rstripDashes (c :: t) = c :: rstripDashes t := by
  unfold rstripDashes
  rw [List.reverse_cons, dropWhile_append_singleton (fun d => d == '-') hc t.reverse,
    List.reverse_append]
  simp

theorem rstripDashes_length_le (l : List Char) : (rstripDashes l).length ≤ l.length := by
  unfold rstripDashes
  rw [List.length_reverse]
  calc (l.reverse.dropWhile _).length ≤ l.reverse.length := (List.dropWhile_sublist _).length_le
    _ = l.length := List.length_reverse l

theorem rstripDashes_subset {l : List Char} : rstripDashes l ⊆ l := by
  intro a ha
  unfold rstripDashes at ha
  rw [List.mem_reverse] at ha
  have := List.dropWhile_subset (l := l.reverse) (fun c => c == '-') ha
  rwa [List.mem_reverse] at this

/-! ## Helper lemmas: `collapseDashes` -/

theorem collapseAux_cons (b : Bool) (c : Char) (t : List Char) :
    collapseAux b (c :: t) =
      if c = '-' then
        if b then collapseAux true t else '-' :: collapseAux true t
      else c :: collapseAux false t := rfl

theorem collapseDashes_cons_ne {c : Char} (hc : ¬ c = '-') (t : List Char) :
    collapseDashes (c :: t) = c :: collapseDashes t := by
  show collapseAux false (c :: t) = c :: collapseAux false t
  rw [collapseAux_cons, if_neg hc]

theorem collapseAux_mem {a : Char} :
    ∀ (l : List Char) (b : Bool), a ∈ collapseAux b l → a = '-' ∨ a ∈ l := by
  intro l
  induction l with
  | nil => intro b h; simp [collapseAux] at h
  | cons c rest ih =>
    intro b h
    rw [collapseAux_cons] at h
    by_cases hc : c = '-'
    · rw [if_pos hc] at h
      by_cases hb : b = true
      · rw [if_pos hb] at h
        rcases ih true h with h | h
        · exact Or.inl h
        · exact Or.inr (List.mem_cons_of_mem _ h)
      · rw [if_neg hb] at h
        rcases List.mem_cons.mp h with h | h
        · exact Or.inl h
        · rcases ih true h with h | h
          · exact Or.inl h
          · exact Or.inr (List.mem_cons_of_mem _ h)
    · rw [if_neg hc] at h
      rcases List.mem_cons.mp h with h | h
      · subst h; exact Or.inr (by simp)
      · rcases ih false h with h | h
        · exact Or.inl h
        · exact Or.inr (by simp [h])

/-- Every character of a collapsed string is a dash or came from the
input. -/
theorem collapseDashes_mem {a : Char} :
    ∀ l : List Char, a ∈ collapseDashes l → a = '-' ∨ a ∈ l :=
  fun l h => collapseAux_mem l false h

/-! ## Helper lemmas: `replaceRuns` -/

/-- One unfolding step of the run-replacement scanner. -/
theorem replaceRunsAux_cons (b : Bool) (c : Char) (t : List Char) :
    replaceRunsAux b (c :: t) =
      if isSlugChar c then c :: replaceRunsAux false t
      else if b then replaceRunsAux true t
      else '-' :: replaceRunsAux true t := rfl

theorem replaceRunsAux_all :
    ∀ (l : List Char) (b : Bool), ∀ a ∈ replaceRunsAux b l, isSlugChar a = true := by
  intro l
  induction l with
  | nil => intro b a ha; simp [replaceRunsAux] at ha
  | cons c rest ih =>
    intro b a ha
    rw [replaceRunsAux_cons] at ha
    by_cases hc : isSlugChar c
    · rw [if_pos hc] at ha
      rcases List.mem_cons.mp ha with h | h
      · subst h; exact hc
      · exact ih false a h
    · rw [if_neg hc] at ha
      by_cases hb : b = true
      · rw [if_pos hb] at ha
        exact ih true a ha
      · rw [if_neg hb] at ha
        rcases List.mem_cons.mp ha with h | h
        · subst h; decide
        · exact ih true a h

/-- Every character of the run-replaced string is in `[a-z0-9-]`. -/
theorem replaceRuns_all (l : List Char) : ∀ a ∈ replaceRuns l, isSlugChar a = true :=
  replaceRunsAux_all l false

theorem replaceRunsAux_length_le :
    ∀ (l : List Char) (b : Bool), (replaceRunsAux b l).length ≤ l.length := by
  intro l
  induction l with
  | nil => intro b; simp [replaceRunsAux]
  | cons c rest ih =>
    intro b
    rw [replaceRunsAux_cons]
    by_cases hc : isSlugChar c
    · rw [if_pos hc]
      simp only [List.length_cons]
      exact Nat.succ_le_succ (ih false)
    · rw [if_neg hc]
      by_cases hb : b = true
      · rw [if_pos hb]
        exact le_trans (ih true) (by simp)
      · rw [if_neg hb]
        simp only [List.length_cons]
        exact Nat.succ_le_succ (ih true)

theorem replaceRuns_length_le (l : List Char) : (replaceRuns l).length ≤ l.length :=
  replaceRunsAux_length_le l false

/-- A string whose characters are all in `[a-z0-9-]` is unchanged by the
run replacement. -/
theorem replaceRuns_fixed : ∀ {l : List Char}, (∀ c ∈ l, isSlugChar c = true) →
    replaceRuns l = l := by
  intro l
  induction l with
  | nil => intro h; rfl
  | cons a t ih =>
    intro h
    show replaceRunsAux false (a :: t) = a :: t
    rw [replaceRunsAux_cons, if_pos (h a (by simp))]
    have ht := ih (fun c hc => h c (by simp [hc]))
    unfold replaceRuns at ht
    rw [ht]

/-! ## Helper lemmas: `alnumCore` and `stripAnchored` -/

theorem alnumCore_subset {s : List Char} : alnumCore s ⊆ s := by
  intro a ha
  unfold alnumCore at ha
  rw [List.mem_reverse] at ha
  have := List.dropWhile_subset (l := s.reverse) (fun c => decide (isAlnumChar c = false)) ha
  rwa [List.mem_reverse] at this

theorem alnumCore_length_le (s : List Char) : (alnumCore s).length ≤ s.length := by
  unfold alnumCore
  rw [List.length_reverse]
  calc (s.reverse.dropWhile _).length ≤ s.reverse.length := (List.dropWhile_sublist _).length_le
    _ = s.length := List.length_reverse s

/-- The string splits into its alphanumeric-terminated core and a residue
of non-alphanumeric characters. -/
theorem alnumCore_decomp (s : List Char) :
    alnumCore s ++ (s.reverse.takeWhile (fun c => isAlnumChar c = false)).reverse = s := by
  unfold alnumCore
  rw [← List.reverse_append, List.takeWhile_append_dropWhile, List.reverse_reverse]

/-- A non-empty core ends with an alphanumeric character. -/
theorem alnumCore_getLast? (s : List Char) (h : alnumCore s ≠ []) :
    ∃ c, (alnumCore s).getLast? = some c ∧ isAlnumChar c = true := by
  unfold alnumCore at *
  cases hd : s.reverse.dropWhile (fun c => decide (isAlnumChar c = false)) with
  | nil => exact absurd (by rw [hd]; rfl) h
  | cons c t =>
    refine ⟨c, ?_, ?_⟩
    · rw [List.getLast?_reverse]
      rfl
    · have := dropWhile_head_false (fun c => decide (isAlnumChar c = false)) s.reverse hd
      simpa using this

theorem stripAnchored_subset {s : List Char} : stripAnchored s ⊆ s := by
  intro a ha
  unfold stripAnchored at ha
  split at ha
  · split at ha
    · exact alnumCore_subset (List.drop_subset _ _ ha)
    · exact ha
  · exact ha

theorem stripAnchored_length_le (s : List Char) : (stripAnchored s).length ≤ s.length := by
  unfold stripAnchored
  split
  · split
    · have h1 : ((alnumCore s).drop
          (min (dashPrefixLen s) ((alnumCore s).length - 2))).length ≤ (alnumCore s).length := by
        rw [List.length_drop]; omega
      exact le_trans h1 (alnumCore_length_le s)
    · exact Nat.le_refl _
  · exact Nat.le_refl _

/-- Case analysis on the anchored strip: either the regex did not match
and the string is unchanged, or the result is the core minus
`min(leadingDashes, |core| - 2)` leading characters. -/
theorem stripAnchored_cases (s : List Char) :
    stripAnchored s = s ∨
      (s.all isSlugChar = true ∧ 2 ≤ (alnumCore s).length ∧
        stripAnchored s =
          (alnumCore s).drop (min (dashPrefixLen s) ((alnumCore s).length - 2))) := by
  unfold stripAnchored
  by_cases h1 : s.all isSlugChar
  · by_cases h2 : 2 ≤ (alnumCore s).length
    · exact Or.inr ⟨h1, h2, by rw [if_pos h1, if_pos h2]⟩
    · exact Or.inl (by rw [if_pos h1, if_neg h2])
  · exact Or.inl (by rw [if_neg h1])

/-- The anchored strip is idempotent. -/
theorem stripAnchored_idem (s : List Char) :
    stripAnchored (stripAnchored s) = stripAnchored s := by
  rcases stripAnchored_cases s with h | ⟨hall, h2, heq⟩
  · rw [h]; exact h
  · rw [heq]
    set core := alnumCore s with hcore
    set d := min (dashPrefixLen s) (core.length - 2) with hd
    have hdle : d ≤ core.length - 2 := Nat.min_le_right _ _
    have hrlen : (core.drop d).length = core.length - d := List.length_drop d core
    have hr2 : 2 ≤ (core.drop d).length := by omega
    have hrne : core.drop d ≠ [] := by
      intro hnil; rw [hnil] at hr2; simp at hr2
    have hcne : core ≠ [] := by
      intro hnil; rw [hnil] at h2; simp at h2
    obtain ⟨c0, hlast, halnum⟩ := alnumCore_getLast? s (hcore ▸ hcne)
    rw [← hcore] at hlast
    have hlastr : (core.drop d).getLast? = some c0 := by
      have htad := List.take_append_drop d core
      rw [← htad, List.getLast?_append] at hlast
      cases hg : (core.drop d).getLast? with
      | none =>
        rw [List.getLast?_eq_none_iff] at hg
        exact absurd hg hrne
      | some y =>
        rw [hg] at hlast
        simpa using hlast
    have hcore_r : alnumCore (core.drop d) = core.drop d := by
      unfold alnumCore
      have hrev : (core.drop d).reverse.head? = some c0 := by
        rw [List.head?_reverse]; exact hlastr
      cases hrv : (core.drop d).reverse with
      | nil => rw [hrv] at hrev; simp at hrev
      | cons y Y =>
        rw [hrv] at hrev
        have hy : y = c0 := by simpa using hrev
        rw [List.dropWhile_cons_of_neg]
        · rw [← hrv, List.reverse_reverse]
        · subst hy; simp [halnum]
    have hallr : (core.drop d).all isSlugChar = true := by
      rw [List.all_eq_true]
      intro x hx
      exact (List.all_eq_true.mp hall) x (alnumCore_subset (List.drop_subset _ _ hx))
    have hmin0 : min (dashPrefixLen (core.drop d)) ((core.drop d).length - 2) = 0 := by
      rcases Nat.le_total (dashPrefixLen s) (core.length - 2) with hPle | hPge
      · have hdP : d = dashPrefixLen s := by rw [hd]; exact Nat.min_eq_left hPle
        have hdec := alnumCore_decomp s
        rw [← hcore] at hdec
        by_cases hfull :
            (core.takeWhile (fun c => c == '-')).length = core.length
        · exfalso
          have h1 : s.takeWhile (fun c => c == '-') =
              core ++ (s.reverse.takeWhile (fun c => isAlnumChar c = false)).reverse.takeWhile
                (fun c => c == '-') := by
            conv_lhs => rw [← hdec]
            rw [List.takeWhile_append, if_pos hfull]
          have hlenP : dashPrefixLen s =
              core.length +
                ((s.reverse.takeWhile (fun c => isAlnumChar c = false)).reverse.takeWhile
                  (fun c => c == '-')).length := by
            unfold dashPrefixLen; rw [h1, List.length_append]
          omega
        · have h1 : s.takeWhile (fun c => c == '-') =
              core.takeWhile (fun c => c == '-') := by
            conv_lhs => rw [← hdec]
            rw [List.takeWhile_append, if_neg hfull]
          have hPcore : (core.takeWhile (fun c => c == '-')).length = dashPrefixLen s := by
            unfold dashPrefixLen; rw [h1]
          have hrdw : core.drop d = core.dropWhile (fun c => c == '-') := by
            rw [dropWhile_eq_drop, hPcore, hdP]
          cases hr : core.dropWhile (fun c => c == '-') with
          | nil => rw [hrdw, hr] at hrne; exact absurd rfl hrne
          | cons y Y =>
            have hy : (y == '-') = false := dropWhile_head_false (fun c => c == '-') core hr
            have hzero : dashPrefixLen (core.drop d) = 0 := by
              unfold dashPrefixLen
              rw [hrdw, hr, List.takeWhile_cons_of_neg (by simp [hy])]
              rfl
            rw [hzero, Nat.zero_min]
      · have hlen2 : (core.drop d).length - 2 = 0 := by
          have hdR : d = core.length - 2 := by rw [hd]; exact Nat.min_eq_right hPge
          omega
        rw [hlen2, Nat.min_zero]
    show stripAnchored (core.drop d) = core.drop d
    unfold stripAnchored
    rw [if_pos hallr, hcore_r, if_pos hr2, hmin0, List.drop_zero]

/-! ## Helper lemmas: `generate_commit_ref_slug` -/

theorem generate_commit_ref_slug_all (B : List Char) :
    ∀ c ∈ generate_commit_ref_slug B, isSlugChar c = true := by
  intro c hc
  unfold generate_commit_ref_slug at hc
  exact replaceRuns_all _ c (stripAnchored_subset hc)

theorem generate_commit_ref_slug_length (B : List Char) :
    (generate_commit_ref_slug B).length ≤ 63 := by
  unfold generate_commit_ref_slug
  calc (stripAnchored (replaceRuns ((B.map pyLower).take 63))).length
      ≤ (replaceRuns ((B.map pyLower).take 63)).length := stripAnchored_length_le _
    _ ≤ ((B.map pyLower).take 63).length := replaceRuns_length_le _
    _ ≤ 63 := by rw [List.length_take]; exact Nat.min_le_left _ _

/-! ## Helper lemmas: `b36encode` -/

theorem b36go_append (num : Nat) : ∀ acc, b36go num acc = b36go num [] ++ acc := by
  induction num using Nat.strong_induction_on with
  | _ num ih =>
    intro acc
    by_cases h : num = 0
    · subst h
      rw [b36go, dif_pos rfl, b36go, dif_pos rfl]
      simp
    · have hlt : num / 36 < num := Nat.div_lt_self (Nat.pos_of_ne_zero h) (by decide)
      rw [b36go, dif_neg h, ih _ hlt (b36digit (num % 36) :: acc)]
      conv_rhs => rw [b36go, dif_neg h, ih _ hlt [b36digit (num % 36)]]
      rw [List.append_assoc]
      rfl

/-- Every digit character has the expected base-36 value. -/
theorem digitVal_b36digit : ∀ i, i < 36 → digitVal (b36digit i) = i := by decide

theorem b36go_value : ∀ num : Nat, valueOfBase36 (b36go num []) = num := by
  intro num
  induction num using Nat.strong_induction_on with
  | _ num ih =>
    by_cases h : num = 0
    · subst h
      rw [b36go, dif_pos rfl]
      rfl
    · have hlt : num / 36 < num := Nat.div_lt_self (Nat.pos_of_ne_zero h) (by decide)
      rw [b36go, dif_neg h, b36go_append]
      unfold valueOfBase36
      rw [List.foldl_append, List.foldl_cons, List.foldl_nil]
      have hiv : valueOfBase36 (b36go (num / 36) []) = num / 36 := ih _ hlt
      unfold valueOfBase36 at hiv
      rw [hiv, digitVal_b36digit _ (Nat.mod_lt _ (by decide))]
      have := Nat.div_add_mod num 36
      omega

/-- A nonzero value encodes to a digit string with a nonzero leading
digit. -/
theorem b36go_ne_nil_head : ∀ num : Nat, num ≠ 0 →
    ∃ c t, b36go num [] = c :: t ∧ isAlnumChar c = true ∧ ¬ c = '0' := by
  intro num
  induction num using Nat.strong_induction_on with
  | _ num ih =>
    intro h
    have hlt : num / 36 < num := Nat.div_lt_self (Nat.pos_of_ne_zero h) (by decide)
    rw [b36go, dif_neg h, b36go_append]
    by_cases h36 : num / 36 = 0
    · rw [h36, b36go, dif_pos rfl, List.nil_append]
      have hmod : num % 36 = num := Nat.mod_eq_of_lt (by omega)
      have hprops : ∀ i, i < 36 → i ≠ 0 → isAlnumChar (b36digit i) = true ∧ ¬ b36digit i = '0' := by
        decide
      obtain ⟨h1, h2⟩ := hprops (num % 36) (Nat.mod_lt _ (by decide)) (by rw [hmod]; exact h)
      exact ⟨b36digit (num % 36), [], rfl, h1, h2⟩
    · obtain ⟨c, t, hct, hcal, hc0⟩ := ih _ hlt h36
      rw [hct]
      exact ⟨c, t ++ [b36digit (num % 36)], by simp, hcal, hc0⟩

theorem b36go_all : ∀ num : Nat, ∀ acc, (∀ a ∈ acc, isAlnumChar a = true) →
    ∀ a ∈ b36go num acc, isAlnumChar a = true := by
  intro num
  induction num using Nat.strong_induction_on with
  | _ num ih =>
    intro acc hacc
    by_cases h : num = 0
    · subst h; rw [b36go, dif_pos rfl]; exact hacc
    · have hlt : num / 36 < num := Nat.div_lt_self (Nat.pos_of_ne_zero h) (by decide)
      rw [b36go, dif_neg h]
      refine ih _ hlt _ ?_
      intro a ha
      rcases List.mem_cons.mp ha with ha | ha
      · subst ha
        have hdig : ∀ i, i < 36 → isAlnumChar (b36digit i) = true := by decide
        exact hdig _ (Nat.mod_lt _ (by decide))
      · exact hacc a ha

theorem bytesBE_foldl_zero : ∀ (b : List Nat) (acc : Nat),
    b.foldl (fun a x => a * 256 + x) acc = 0 ↔ (acc = 0 ∧ ∀ x ∈ b, x = 0) := by
  intro b
  induction b with
  | nil => intro acc; simp
  | cons y t ih =>
    intro acc
    rw [List.foldl_cons, ih]
    constructor
    · rintro ⟨h1, h2⟩
      have hy : acc = 0 ∧ y = 0 := by omega
      refine ⟨hy.1, fun x hx => ?_⟩
      rcases List.mem_cons.mp hx with hx | hx
      · subst hx; exact hy.2
      · exact h2 x hx
    · rintro ⟨h1, h2⟩
      refine ⟨?_, fun x hx => h2 x (List.mem_cons_of_mem _ hx)⟩
      have hy := h2 y (by simp)
      omega

theorem bytesBE_eq_zero_iff (b : List Nat) : bytesBE b = 0 ↔ ∀ x ∈ b, x = 0 := by
  unfold bytesBE
  rw [bytesBE_foldl_zero]
  simp

theorem b36encode_eq_nil_iff (b : List Nat) : b36encode b = [] ↔ bytesBE b = 0 := by
  unfold b36encode
  constructor
  · intro h
    by_contra hne
    obtain ⟨c, t, hct, -, -⟩ := b36go_ne_nil_head _ hne
    rw [hct] at h
    simp at h
  · intro h
    rw [h, b36go, dif_pos rfl]

/-! ## Helper lemmas: `envCollapsedSlug` -/

/-- Every character of the single-character substitution step is in
`[a-z0-9-]`. -/
theorem envSub_all (l : List Char) :
    ∀ c ∈ l.map (fun c => if isAlnumChar c then c else '-'), isSlugChar c = true := by
  intro c hc
  rw [List.mem_map] at hc
  obtain ⟨x, -, hx⟩ := hc
  by_cases hxa : isAlnumChar x
  · rw [if_pos hxa] at hx
    subst hx
    simp [isSlugChar, hxa]
  · rw [if_neg hxa] at hx
    subst hx
    decide

theorem envPrefixChars_all : ∀ c ∈ envPrefixChars, isSlugChar c = true := by decide

/-- Every character of the collapsed slug is in `[a-z0-9-]`. -/
theorem envCollapsedSlug_all (E : List Char) :
    ∀ c ∈ envCollapsedSlug E, isSlugChar c = true := by
  intro c hc
  unfold envCollapsedSlug at hc
  rcases collapseDashes_mem _ hc with h | h
  · subst h; decide
  · split at h
    · exact envSub_all _ c h
    · rcases List.mem_append.mp h with h | h
      · exact envPrefixChars_all c h
      · exact envSub_all _ c h

/-- The collapsed slug starts with a lowercase letter. -/
theorem envCollapsedSlug_head (E : List Char) :
    ∃ c t, envCollapsedSlug E = c :: t ∧ isLowerAlpha c = true := by
  unfold envCollapsedSlug
  by_cases hstart :
      startsWithLowerAlpha ((E.map pyLower).map (fun c => if isAlnumChar c then c else '-'))
  · rw [if_pos hstart]
    cases hs : (E.map pyLower).map (fun c => if isAlnumChar c then c else '-') with
    | nil => rw [hs] at hstart; simp [startsWithLowerAlpha] at hstart
    | cons c t =>
      rw [hs] at hstart
      have hc : isLowerAlpha c = true := by simpa [startsWithLowerAlpha] using hstart
      rw [collapseDashes_cons_ne (lowerAlpha_ne_dash hc) t]
      exact ⟨c, collapseDashes t, rfl, hc⟩
  · rw [if_neg hstart]
    have hpre : envPrefixChars ++ (E.map pyLower).map (fun c => if isAlnumChar c then c else '-') =
        'e' :: ('n' :: 'v' :: '-' :: (E.map pyLower).map (fun c => if isAlnumChar c then c else '-')) := rfl
    rw [hpre, collapseDashes_cons_ne (by decide) _]
    exact ⟨'e', _, rfl, by decide⟩

/-! ## Claim theorems -/

/-- Claim C3 counterexample: the input `"-a"` is unchanged by the slug
pipeline (the strip regex needs a two-character group ending in an
alphanumeric), so the output starts with `'-'` although the input is not
empty after normalization. -/
theorem C3_counterexample :
    generate_commit_ref_slug ("-a".data) = "-a".data ∧
    ¬ ("-a".data : List Char) = [] ∧
    (generate_commit_ref_slug ("-a".data)).headI = '-' :=
  ⟨by decide, by decide, by decide⟩

/-- Claim C3 (amended): every commit-ref slug has length at most 63 and
contains only characters in `[a-z0-9-]`; the no-leading/trailing-dash
part of the original claim is dropped, since the anchored strip leaves
dashes in place whenever its group cannot match (e.g. `slug("-a") =
"-a"` and `slug("a-") = "a-"`). -/
theorem C3_amended (B : List Char) :
    (generate_commit_ref_slug B).length ≤ 63 ∧
    (generate_commit_ref_slug B).all isSlugChar = true :=
  ⟨generate_commit_ref_slug_length B,
    List.all_eq_true.mpr (generate_commit_ref_slug_all B)⟩

/-- Claim C4 counterexample: `slug("a-")` is `"a-"`, not `"a"`: the
strip regex group `([a-z0-9-]+[a-z0-9])` needs at least two characters
ending in an alphanumeric, which `"a-"` cannot supply, so no stripping
happens even though stripping would leave the alphanumeric `"a"`. -/
theorem C4_counterexample :
    generate_commit_ref_slug ("a-".data) = "a-".data ∧
    ¬ generate_commit_ref_slug ("a-".data) = "a".data :=
  ⟨by decide, by decide⟩

/-- Claim C4 (amended): after lowercasing, truncation to 63 characters
and run-replacement, the leading and trailing dashes are stripped
exactly when the retained core - the prefix ending at the last
alphanumeric character, shortened by `min(leadingDashes, |core| - 2)`
leading characters - has at least two characters; otherwise the string
is returned unchanged.  In particular `slug("ab-") = "ab"` while
`slug("a-") = "a-"`. -/
theorem C4_amended :
    (∀ B : List Char,
      generate_commit_ref_slug B =
        if 2 ≤ (alnumCore (replaceRuns ((B.map pyLower).take 63))).length then
          (alnumCore (replaceRuns ((B.map pyLower).take 63))).drop
            (min (dashPrefixLen (replaceRuns ((B.map pyLower).take 63)))
              ((alnumCore (replaceRuns ((B.map pyLower).take 63))).length - 2))
        else replaceRuns ((B.map pyLower).take 63)) ∧
    generate_commit_ref_slug ("ab-".data) = "ab".data := by
  constructor
  · intro B
    have hall : (replaceRuns ((B.map pyLower).take 63)).all isSlugChar = true :=
      List.all_eq_true.mpr (fun c hc => replaceRuns_all _ c hc)
    unfold generate_commit_ref_slug stripAnchored
    rw [if_pos hall]
  · decide

/-- Claim C5: `generate_commit_ref_slug` is idempotent: its output
contains only `[a-z0-9-]`, is at most 63 characters long, and such
strings pass unchanged through lowercasing, truncation and
run-replacement, while the anchored strip is idempotent. -/
theorem C5_slug_idempotent (B : List Char) :
    generate_commit_ref_slug (generate_commit_ref_slug B) = generate_commit_ref_slug B := by
  have hall := generate_commit_ref_slug_all B
  have hlen := generate_commit_ref_slug_length B
  show stripAnchored (replaceRuns (((generate_commit_ref_slug B).map pyLower).take 63)) =
    generate_commit_ref_slug B
  rw [map_pyLower_fixed hall, List.take_of_length_le hlen, replaceRuns_fixed hall]
  exact stripAnchored_idem _

/-- Claim C6 counterexample: with the ordered mapping
`{A: "$B", B: "v"}`, the value `"$B"` inserted by the earlier key `A` IS
rescanned by the later key `B`'s pass, so the result is `"v"` and not
the `"$B"` the claim predicts. -/
theorem C6_counterexample :
    interpolate_env_variables ("$A".data) [("A".data, "$B".data), ("B".data, "v".data)] =
      "v".data ∧
    ¬ interpolate_env_variables ("$A".data) [("A".data, "$B".data), ("B".data, "v".data)] =
      "$B".data :=
  ⟨by decide, by decide⟩

/-- Claim C6 (amended): interpolation folds over the mapping in order,
and each key's two replacement passes run over the whole intermediate
string; hence text inserted as an earlier key's value is rescanned by
every later key's pass (later keys' patterns occurring inside
earlier-inserted text are replaced), as the instance
`interpolate("$X", {X: "$Y", Y: "w"}) = "w"` shows. -/
theorem C6_amended :
    (∀ (s k v : List Char) (rest : List (List Char × List Char)),
        interpolate_env_variables s ((k, v) :: rest) =
          interpolate_env_variables
            (pyReplace (pyReplace s (dollarPat k) v) (bracePat k) v) rest) ∧
    interpolate_env_variables ("$X".data) [("X".data, "$Y".data), ("Y".data, "w".data)] =
      "w".data :=
  ⟨fun s k v rest => rfl, by decide⟩

/-- Claim C7 counterexample: a supplied but empty environment-url
template produces NO `CI_ENVIRONMENT_URL` value (the Python guard
`if environment_url:` is falsy for the empty string), contradicting the
claim that the field is present for any supplied string including the
empty one. -/
theorem C7_counterexample :
    (PredefinedVariables.generate ("b".data) ("e".data) (some []) []).CI_ENVIRONMENT_URL =
      none := by
  decide

/-- Claim C7 (amended): the URL field is absent when no template is
supplied and also when the supplied template is empty; for a non-empty
template `u` it equals `interpolate(u, M2)` where `M2` is the Python
dict merge of the extra variables with CI_COMMIT_REF_NAME,
CI_COMMIT_REF_SLUG, CI_ENVIRONMENT_NAME and CI_ENVIRONMENT_SLUG (later
values win on duplicate names; a key already present in the extra
variables keeps its position there). -/
theorem C7_amended (branch environment_name : List Char)
    (environment_url : Option (List Char)) (env : List (List Char × List Char)) :
    (PredefinedVariables.generate branch environment_name environment_url env).CI_ENVIRONMENT_URL =
      match environment_url with
      | none => none
      | some u =>
        if u = [] then none
        else
          some (interpolate_env_variables u
            (dictMerge env
              [(refNameKey, branch),
               (refSlugKey, generate_commit_ref_slug branch),
               (envNameKey,
                interpolate_env_variables environment_name
                  [(refNameKey, branch), (refSlugKey, generate_commit_ref_slug branch)]),
               (envSlugKey,
                generate_environment_slug
                  (interpolate_env_variables environment_name
                    [(refNameKey, branch), (refSlugKey, generate_commit_ref_slug branch)]))])) :=
  rfl

/-- Claim C9: `b36encode` produces the base-36 digit string (alphabet
`0-9a-z`, most significant digit first, no padding, no sign, hence no
leading zero digit) of the bytes read as one big-endian unsigned
integer; the output is empty exactly when that integer is zero, which
happens exactly when every byte is zero (in particular for the empty
byte string). -/
theorem C9_b36encode_correct (b : List Nat) :
    valueOfBase36 (b36encode b) = bytesBE b ∧
    (b36encode b).all isAlnumChar = true ∧
    (b36encode b = [] ↔ bytesBE b = 0) ∧
    (bytesBE b = 0 ↔ b.all (fun x => x == 0) = true) ∧
    ¬ (b36encode b).headI = '0' := by
  refine ⟨b36go_value _, ?_, b36encode_eq_nil_iff b, ?_, ?_⟩
  · rw [List.all_eq_true]
    intro a ha
    exact b36go_all _ [] (by simp) a ha
  · rw [bytesBE_eq_zero_iff, List.all_eq_true]
    constructor
    · intro h x hx; simpa using h x hx
    · intro h x hx; simpa using h x hx
  · by_cases h : bytesBE b = 0
    · unfold b36encode
      rw [h, b36go, dif_pos rfl]
      decide
    · obtain ⟨c, t, hct, -, hc0⟩ := b36go_ne_nil_head _ h
      unfold b36encode
      rw [hct]
      simpa using hc0

/-- Claim C10: for a single key the `${NAME}` replacement runs after and
over the output of the `$NAME` replacement, so a value containing
`${A}` inserted by the `$A` pass is rewritten again:
`interpolate("$A", {A: "x${A}y"}) = "xx${A}yy"`. -/
theorem C10_brace_rescans_dollar :
    interpolate_env_variables ("$A".data) [("A".data, "x$\x7bA\x7dy".data)] =
      "xx$\x7bA\x7dyy".data := by
  decide

/-- Claim C2: whenever the fast-path test fails (the collapsed slug
differs from the original name or is longer than 24 characters),
`generate_environment_slug` returns the collapsed slug truncated to 17
characters, with a `'-'` appended when that prefix does not already end
in one, followed by the last (at most) 6 characters of the base36
encoding of the SHA-256 digest of the original, untransformed name. -/
theorem C2_slow_path (E : List Char)
    (h : ¬ ((envCollapsedSlug E).length ≤ 24 ∧ envCollapsedSlug E = E)) :
    generate_environment_slug E =
      (if ((envCollapsedSlug E).take 17).getLast? = some '-'
       then (envCollapsedSlug E).take 17
       else (envCollapsedSlug E).take 17 ++ ['-'])
      ++ lastN 6 (b36encode (sha256 (utf8Encode E))) := by
  unfold generate_environment_slug
  rw [if_neg h]

/-- Witness for claim C2 at the name `"A"`, whose collapsed slug `"a"`
differs from the original input. -/
theorem C2_slow_path_witness :
    (¬ ((envCollapsedSlug ("A".data)).length ≤ 24 ∧ envCollapsedSlug ("A".data) = "A".data)) ∧
    generate_environment_slug ("A".data) =
      (if ((envCollapsedSlug ("A".data)).take 17).getLast? = some '-'
       then (envCollapsedSlug ("A".data)).take 17
       else (envCollapsedSlug ("A".data)).take 17 ++ ['-'])
      ++ lastN 6 (b36encode (sha256 (utf8Encode ("A".data)))) :=
  ⟨by decide, C2_slow_path ("A".data) (by decide)⟩

/-- Claim C8: when the collapsed slug is at most 24 characters long and
identical to the original name, `generate_environment_slug` returns it
with trailing dashes stripped and no hash suffix. -/
theorem C8_fast_path (E : List Char) (h1 : (envCollapsedSlug E).length ≤ 24)
    (h2 : envCollapsedSlug E = E) :
    generate_environment_slug E = rstripDashes (envCollapsedSlug E) := by
  unfold generate_environment_slug
  rw [if_pos ⟨h1, h2⟩]

/-- Witness for claim C8 at the name `"production"`, which is its own
collapsed slug; in particular `slug("production") = "production"`. -/
theorem C8_fast_path_witness :
    (envCollapsedSlug ("production".data)).length ≤ 24 ∧
    envCollapsedSlug ("production".data) = "production".data ∧
    generate_environment_slug ("production".data) = "production".data :=
  ⟨by decide, by decide,
    (C8_fast_path ("production".data) (by decide) (by decide)).trans (by decide)⟩

/-- Claim C1: every environment slug is non-empty, at most 24 characters
long, drawn from `[a-z0-9-]`, and starts with a lowercase letter (the
`env-`-prefixed form also starts with the letter `e`). -/
theorem C1_env_slug_shape (E : List Char) :
    (generate_environment_slug E).length ≤ 24 ∧
    (generate_environment_slug E).all isSlugChar = true ∧
    ¬ generate_environment_slug E = [] ∧
    isLowerAlpha (generate_environment_slug E).headI = true := by
  obtain ⟨c, t, hct, hc⟩ := envCollapsedSlug_head E
  have hallc := envCollapsedSlug_all E
  unfold generate_environment_slug
  by_cases hfp : (envCollapsedSlug E).length ≤ 24 ∧ envCollapsedSlug E = E
  · rw [if_pos hfp]
    have hcne : (c == '-') = false := by
      have := lowerAlpha_ne_dash hc
      simp [this]
    have hres : rstripDashes (envCollapsedSlug E) = c :: rstripDashes t := by
      rw [hct, rstripDashes_cons hcne]
    refine ⟨?_, ?_, ?_, ?_⟩
    · exact le_trans (rstripDashes_length_le _) hfp.1
    · rw [List.all_eq_true]
      intro x hx
      exact hallc x (rstripDashes_subset hx)
    · rw [hres]; simp
    · rw [hres]; simpa using hc
  · rw [if_neg hfp]
    have htake : (envCollapsedSlug E).take 17 = c :: t.take 16 := by
      rw [hct]
      rfl
    have hall17 : ∀ x ∈ (envCollapsedSlug E).take 17, isSlugChar x = true :=
      fun x hx => hallc x (List.take_subset _ _ hx)
    have hhash : ∀ x ∈ lastN 6 (b36encode (sha256 (utf8Encode E))), isSlugChar x = true := by
      intro x hx
      have hx' : x ∈ b36encode (sha256 (utf8Encode E)) := List.drop_subset _ _ hx
      have halx := b36go_all _ [] (by simp) x hx'
      simp [isSlugChar, halx]
    have hlen17 : ((envCollapsedSlug E).take 17).length ≤ 17 := by
      rw [List.length_take]
      exact Nat.min_le_left _ _
    have hlenh : (lastN 6 (b36encode (sha256 (utf8Encode E)))).length ≤ 6 := by
      unfold lastN
      rw [List.length_drop]
      omega
    by_cases hdash : ((envCollapsedSlug E).take 17).getLast? = some '-'
    · rw [if_pos hdash]
      refine ⟨?_, ?_, ?_, ?_⟩
      · rw [List.length_append]
        omega
      · rw [List.all_eq_true]
        intro x hx
        rcases List.mem_append.mp hx with hx | hx
        · exact hall17 x hx
        · exact hhash x hx
      · rw [htake]; simp
      · rw [htake]
        simpa using hc
    · rw [if_neg hdash]
      refine ⟨?_, ?_, ?_, ?_⟩
      · rw [List.length_append, List.length_append]
        have hone : (['-'] : List Char).length = 1 := rfl
        omega
      · rw [List.all_eq_true]
        intro x hx
        rcases List.mem_append.mp hx with hx | hx
        · rcases List.mem_append.mp hx with hx | hx
          · exact hall17 x hx
          · rw [List.mem_singleton] at hx
            subst hx
            decide
        · exact hhash x hx
      · rw [htake]
        simp
      · rw [htake]
        simpa [List.cons_append] using hc
